import Mathlib

/-!
Verification of the advanced-vector container (src/advanced-vector/vector.h).

The development shallowly embeds the two components of the header:

* `RawMemory` — the raw storage owner.  A block is modelled by an optional
  block identifier (`none` models a null `buffer_`) together with the stored
  `capacity_`.  The move constructor and move assignment operator are
  translated statement by statement.

* `Vector` — the logical sequence.  Live elements are modelled by the list
  `elems` (slots `[0, size)` of the buffer, in order) together with the
  stored capacity of `data_`.  Mutating member functions are translated from
  the header; the shifting loops `std::move_backward` and `std::move` are
  embedded through their standard semantics (`moveBackward`, `moveForward`)
  acting on the buffer contents, and the relocation helpers
  `std::uninitialized_copy_n` / `std::uninitialized_move_n` by the list of
  values they place in the new storage.

For the exception-safety analysis the relocation paths are additionally
instrumented (`uninitCopyN`, `Vector.ReserveThrowingCopy`,
`Vector.RealocationEmplaceThrowingCopy`) with a copy-constructor invocation
counter: the k-th copy invocation throws, `std::uninitialized_copy_n`
destroys the objects it itself constructed before rethrowing, and the
outcome records how many objects were constructed and destroyed in the new
storage.
-/

namespace AdvancedVector

/-- Raw storage owner (`RawMemory<T>`): `buffer` is the owned block
(`none` models a null `buffer_`), `capacity` the slot count `capacity_`. -/
structure RawMemory where
  buffer : Option Nat
  capacity : Nat
deriving DecidableEq

/-- Move constructor of `RawMemory` (vector.h lines 22-25): the fields are
initialised from `other` (`std::move` on a pointer and a `size_t` copies
them), then `other.buffer_ = nullptr;` runs.  `other.capacity_` is never
reset.  Returns the pair (constructed object, moved-from source). -/
def RawMemory.moveCtor (other : RawMemory) : RawMemory × RawMemory :=
  (⟨other.buffer, other.capacity⟩, ⟨none, other.capacity⟩)

/-- Move assignment of `RawMemory` (vector.h lines 27-34): after the
self-assignment guard it deallocates the old block, then copies
`rhs.buffer_` and `rhs.capacity_`; `rhs` is left untouched (neither field
of the source is cleared).  Returns the pair (assigned target, source
after the call). -/
def RawMemory.moveAssign (self rhs : RawMemory) (sameObject : Bool) : RawMemory × RawMemory :=
  if sameObject then (self, rhs)
  else (⟨rhs.buffer, rhs.capacity⟩, ⟨rhs.buffer, rhs.capacity⟩)

/-- The compile-time capabilities of the element type `T` that the header
branches on. -/
structure ElemTraits where
  isNothrowMoveConstructible : Bool
  isCopyConstructible : Bool
deriving DecidableEq

/-- Strategy selection of `Vector::FillTmpData` (vector.h line 191):
`true` means the elements are moved into the new storage
(`std::uninitialized_move_n`), `false` that they are copied. -/
def fillTmpDataUsesMove (t : ElemTraits) : Bool :=
  t.isNothrowMoveConstructible || !t.isCopyConstructible

/-- Strategy selection of `Vector::RealocationEmplace` (vector.h line 289):
`true` means the prefix and suffix are moved into the new storage,
`false` that they are copied. -/
def realocationEmplaceUsesMove (t : ElemTraits) : Bool :=
  t.isNothrowMoveConstructible || !t.isCopyConstructible

/-- Logical sequence (`Vector<T>`): `elems` is the list of live element
values in slots `[0, size_)`, `capacity` the capacity of `data_`. -/
structure Vector (α : Type) where
  elems : List α
  capacity : Nat
deriving DecidableEq

/-- Number of live elements (`size_`). -/
def Vector.size {α : Type} (v : Vector α) : Nat :=
  v.elems.length

/-- Standard semantics of `std::move_backward(first, last, d_last)` on a
buffer `b`, with `f`, `l`, `d` the index positions of the three iterators:
slots `[d - (l - f), d)` receive the original values of `[f, l)`, the
remaining slots are unchanged.  (The backward order of the loop guarantees
every source slot is read before it is overwritten, as in the call in
`Vector::EasyEmplace` where the ranges overlap with `d = l + 1`.) -/
def moveBackward {α : Type} [Inhabited α] (b : List α) (f l d : Nat) : List α :=
  (List.range b.length).map fun j =>
    if d - (l - f) ≤ j ∧ j < d then b.getD (j - (d - l)) default else b.getD j default

/-- Standard semantics of `std::move(first, last, d_first)` on a buffer `b`,
with `f`, `l`, `d` the index positions of the three iterators: slots
`[d, d + (l - f))` receive the original values of `[f, l)`, the remaining
slots are unchanged.  (The forward order of the loop guarantees every
source slot is read before it is overwritten, as in the call in
`Vector::Erase` where the ranges overlap with `d + 1 = f`.) -/
def moveForward {α : Type} [Inhabited α] (b : List α) (f l d : Nat) : List α :=
  (List.range b.length).map fun j =>
    if d ≤ j ∧ j < d + (l - f) then b.getD (j + (f - d)) default else b.getD j default

/-- Translation of `Vector::Reserve` (vector.h lines 199-208): early return when
`Capacity() >= new_capacity`; otherwise a new block of exactly
`new_capacity` slots is filled with the current elements (`FillTmpData`
preserves their values whether it moves or copies), swapped in, and the
old elements are destroyed. -/
def Vector.Reserve {α : Type} (v : Vector α) (newCapacity : Nat) : Vector α :=
  if newCapacity ≤ v.capacity then v
  else ⟨v.elems, newCapacity⟩

/-- Translation of `Vector::Resize` (vector.h lines 210-219): when `size_ >= new_size` the
elements in `[new_size, size_)` are destroyed; otherwise `Reserve(new_size)`
runs and slots `[size_, new_size)` are value-constructed (`default` models a
value-constructed `T`).  Finally `size_ = new_size`. -/
def Vector.Resize {α : Type} [Inhabited α] (v : Vector α) (newSize : Nat) : Vector α :=
  if newSize ≤ v.elems.length then
    ⟨v.elems.take newSize, v.capacity⟩
  else
    let r := v.Reserve newSize
    ⟨r.elems ++ List.replicate (newSize - v.elems.length) default, r.capacity⟩

/-- Translation of `Vector::EasyEmplace` (vector.h lines 269-282), the non-reallocating
path of `Emplace`.  When `pos` is not the end position: a temporary `tmp`
holds the new value, `new (end()) T(std::forward<T>(*(end() - 1)))` appends
the value of the last live slot, `std::move_backward(pos, end() - 1, end())`
shifts `[pos, size_ - 1)` one slot to the right, and `*pos = std::move(tmp)`
stores the new value at `pos`.  When `pos` is the end position the new value
is constructed directly at `end()`.  Returns the new state together with the
index of the returned iterator. -/
def Vector.EasyEmplace {α : Type} [Inhabited α] (v : Vector α) (pos : Nat) (x : α) :
    Vector α × Nat :=
  if pos ≠ v.elems.length then
    let s := v.elems
    let b1 := s ++ [s.getD (s.length - 1) default]
    let b2 := moveBackward b1 pos (s.length - 1) s.length
    (⟨b2.set pos x, v.capacity⟩, pos)
  else
    (⟨v.elems ++ [x], v.capacity⟩, pos)

/-- Translation of `Vector::RealocationEmplace` (vector.h lines 284-301), the reallocating
path of `Emplace`.  A new block of `size_ == 0 ? 1 : size_ * 2` slots is
allocated, the new element is constructed at offset `pos_step`, the prefix
`[0, pos_step)` is relocated to `[0, pos_step)` and the suffix
`[pos_step, size_)` to `[pos_step + 1, size_ + 1)` (the move branch and the
copy branch place the same values), the old elements are destroyed and the
new block adopted.  Returns the new state and the index `pos_step` of the
returned iterator `begin() + pos_step`. -/
def Vector.RealocationEmplace {α : Type} (v : Vector α) (pos : Nat) (x : α) :
    Vector α × Nat :=
  let newCap := if v.elems.length = 0 then 1 else v.elems.length * 2
  (⟨v.elems.take pos ++ x :: v.elems.drop pos, newCap⟩, pos)

/-- Translation of `Vector::Emplace` (vector.h lines 234-242): the non-reallocating path
when `size_ < Capacity()`, the reallocating path otherwise. -/
def Vector.Emplace {α : Type} [Inhabited α] (v : Vector α) (pos : Nat) (x : α) :
    Vector α × Nat :=
  if v.elems.length < v.capacity then v.EasyEmplace pos x
  else v.RealocationEmplace pos x

/-- Translation of `Vector::Insert` (vector.h lines 250-255): both overloads forward to
`Emplace`. -/
def Vector.Insert {α : Type} [Inhabited α] (v : Vector α) (pos : Nat) (x : α) :
    Vector α × Nat :=
  v.Emplace pos x

/-- Translation of `Vector::PushBack` via `EmplaceBack` (vector.h lines 221-230):
`Emplace(end(), ...)`. -/
def Vector.PushBack {α : Type} [Inhabited α] (v : Vector α) (x : α) : Vector α :=
  (v.Emplace v.elems.length x).1

/-- Translation of `Vector::Erase` (vector.h lines 244-249): `std::move(pos + 1, end(), pos)`
shifts every element after `pos` one slot to the left, the last live slot is
destroyed and `size_` decremented.  Returns the new state and the index of
the returned iterator. -/
def Vector.Erase {α : Type} [Inhabited α] (v : Vector α) (pos : Nat) : Vector α × Nat :=
  let b := moveForward v.elems (pos + 1) v.elems.length pos
  (⟨b.take (v.elems.length - 1), v.capacity⟩, pos)

/-- The assignment loop of the copy assignment operator (vector.h lines
121-124): `data_[i] = rhs.data_[i]` for every `i` below both sizes; the
result is the buffer contents of the live slots of `*this` after the
loop. -/
def assignOverlap {α : Type} : List α → List α → List α
  | s, [] => s
  | [], _ => []
  | _ :: s, b :: r => b :: assignOverlap s r

/-- Translation of `Vector::operator=(const Vector&)` (vector.h lines 114-135) after the
self-assignment guard.  When `rhs.size_ > data_.Capacity()`: `Vector
copy(rhs); Swap(copy);` installs an exact-size copy.  Otherwise the overlap
is assigned element-wise; then either the trailing live elements are
destroyed (`rhs.size_ < size_`) or the missing trailing elements are
copy-constructed from `rhs`.  Finally `size_ = rhs.size_`. -/
def Vector.copyAssign {α : Type} (v rhs : Vector α) : Vector α :=
  if v.capacity < rhs.elems.length then
    ⟨rhs.elems, rhs.elems.length⟩
  else
    let buf := assignOverlap v.elems rhs.elems
    if rhs.elems.length < v.elems.length then
      ⟨buf.take rhs.elems.length, v.capacity⟩
    else
      ⟨buf ++ rhs.elems.drop v.elems.length, v.capacity⟩

/-- Translation of `Vector::operator=(const Vector&)` including the `this != &rhs` guard
(vector.h line 115), instrumented: besides the resulting state it returns
the number of elements of `*this` that are destroyed during the call (by
`std::destroy_n`, or by the destructor of the swapped-out temporary in the
copy-and-swap branch) and whether a new block is allocated. -/
def Vector.copyAssignOp {α : Type} (sameObject : Bool) (v rhs : Vector α) :
    Vector α × Nat × Bool :=
  if sameObject then (v, 0, false)
  else if v.capacity < rhs.elems.length then
    (⟨rhs.elems, rhs.elems.length⟩, v.elems.length, true)
  else
    let buf := assignOverlap v.elems rhs.elems
    if rhs.elems.length < v.elems.length then
      (⟨buf.take rhs.elems.length, v.capacity⟩, v.elems.length - rhs.elems.length, false)
    else
      (⟨buf ++ rhs.elems.drop v.elems.length, v.capacity⟩, 0, false)

/-! Instrumented relocation: the element type has a copy constructor that
throws on its k-th invocation. -/

/-- Model of `std::uninitialized_copy_n` under a copy constructor that throws on its
k-th invocation overall.  `done` is the number of copy invocations already
performed before this call.  On success it returns the copied values and
the updated invocation count; on failure it returns `Except.error c` where
`c` is the number of elements this call constructed and then destroyed
again (the standard requires `uninitialized_copy_n` to destroy exactly the
objects it itself constructed before rethrowing). -/
def uninitCopyN {α : Type} (k : Nat) : Nat → List α → Except Nat (List α × Nat)
  | done, [] => .ok ([], done)
  | done, a :: s =>
    if done + 1 = k then .error 0
    else
      match uninitCopyN k (done + 1) s with
      | .ok (ys, d) => .ok (a :: ys, d)
      | .error c => .error (c + 1)

/-- Outcome of an instrumented relocation: the resulting vector (unchanged
when the exception propagates), whether an exception was thrown, and how
many elements were constructed in, respectively destroyed in, the new
storage during the call. -/
structure RelocOutcome (α : Type) where
  result : Vector α
  thrown : Bool
  constructedNew : Nat
  destroyedNew : Nat
deriving DecidableEq

/-- Model of `Vector::Reserve` when `FillTmpData` takes the copy branch and the
element copy constructor throws on its k-th invocation (counted from the
start of the call).  On failure `uninitialized_copy_n` destroys its own
partial work, the exception propagates before `data_.Swap`, and the
`RawMemory` destructor of `new_data` releases the block. -/
def Vector.ReserveThrowingCopy {α : Type} (k : Nat) (v : Vector α) (newCapacity : Nat) :
    RelocOutcome α :=
  if newCapacity ≤ v.capacity then ⟨v, false, 0, 0⟩
  else
    match uninitCopyN k 0 v.elems with
    | .ok (ys, _) => ⟨⟨ys, newCapacity⟩, false, v.elems.length, 0⟩
    | .error c => ⟨v, true, c, c⟩

/-- Model of `Vector::RealocationEmplace` when the copy branch is selected and the
new element itself is copy-constructed from an lvalue argument (the
`PushBack(const T&)` route), under a copy constructor that throws on its
k-th invocation (counted from the start of the call).  Invocation 1 is
`new (new_data + pos_step) T(args...)`; then the prefix and the suffix are
copied by `std::uninitialized_copy_n`, each of which destroys only its own
partial work on failure.  No handler in `RealocationEmplace` destroys the
elements constructed by the earlier statements, so on a suffix or prefix
failure those remain unconstructed-destroyed in the released block. -/
def Vector.RealocationEmplaceThrowingCopy {α : Type} (k : Nat) (v : Vector α) (pos : Nat)
    (x : α) : RelocOutcome α :=
  let newCap := if v.elems.length = 0 then 1 else v.elems.length * 2
  if 0 + 1 = k then ⟨v, true, 0, 0⟩
  else
    match uninitCopyN k 1 (v.elems.take pos) with
    | .error c => ⟨v, true, 1 + c, c⟩
    | .ok (pre, done) =>
      match uninitCopyN k done (v.elems.drop pos) with
      | .error c => ⟨v, true, 1 + (v.elems.take pos).length + c, c⟩
      | .ok (suf, _) => ⟨⟨pre ++ x :: suf, newCap⟩, false, v.elems.length + 1, 0⟩

/-! Buffer lemmas used to evaluate the shifting loops. -/

/-- Reading a dropped list. -/
theorem getD_drop_eq {α : Type} (s : List α) (n m : Nat) (d : α) :
    (s.drop n).getD m d = s.getD (n + m) d := by
  rcases Nat.lt_or_ge (n + m) s.length with h | h
  · rw [List.getD_eq_getElem _ _ (by simp; omega), List.getD_eq_getElem _ _ h,
      List.getElem_drop _]
  · rw [List.getD_eq_default _ _ (by simp; omega), List.getD_eq_default _ _ h]

/-- Reading a taken list below the cut. -/
theorem getD_take_eq {α : Type} (s : List α) (n m : Nat) (d : α) (h : m < n) :
    (s.take n).getD m d = s.getD m d := by
  rcases Nat.lt_or_ge m s.length with hm | hm
  · rw [List.getD_eq_getElem _ _ (by simp; omega), List.getD_eq_getElem _ _ hm,
      List.getElem_take _]
  · rw [List.getD_eq_default _ _ (by simp; omega), List.getD_eq_default _ _ hm]

/-- Reading a list with one value inserted at position `p`. -/
theorem getD_insertAt {α : Type} (s : List α) (p j : Nat) (x d : α) (hp : p ≤ s.length) :
    (s.take p ++ x :: s.drop p).getD j d =
      if j < p then s.getD j d else if j = p then x else s.getD (j - 1) d := by
  by_cases h1 : j < p
  · rw [List.getD_append _ _ _ _ (by simp; omega), if_pos h1, getD_take_eq _ _ _ _ h1]
  · rw [List.getD_append_right _ _ _ _ (by simp; omega), if_neg h1]
    have hlt : (s.take p).length = p := by simp; omega
    rw [hlt]
    rcases Nat.eq_or_lt_of_le (Nat.le_of_not_lt h1) with he | hgt
    · rw [if_pos he.symm, ← he, Nat.sub_self]
      rfl
    · rw [if_neg (by omega)]
      obtain ⟨m, hm⟩ : ∃ m, j - p = m + 1 := ⟨j - p - 1, by omega⟩
      rw [hm]
      show (s.drop p).getD m d = s.getD (j - 1) d
      rw [getD_drop_eq]
      congr 1
      omega

/-- Reading a list with the element at position `p` removed. -/
theorem getD_removeAt {α : Type} (s : List α) (p j : Nat) (d : α) (hp : p ≤ s.length) :
    (s.take p ++ s.drop (p + 1)).getD j d =
      if j < p then s.getD j d else s.getD (j + 1) d := by
  by_cases h1 : j < p
  · rw [List.getD_append _ _ _ _ (by simp; omega), if_pos h1, getD_take_eq _ _ _ _ h1]
  · rw [List.getD_append_right _ _ _ _ (by simp; omega), if_neg h1]
    have hlt : (s.take p).length = p := by simp; omega
    rw [hlt, getD_drop_eq]
    congr 1
    omega

/-- Evaluation of the non-end branch of `EasyEmplace`: appending the last
value, shifting `[pos, size - 1)` one slot right with `move_backward` and
assigning the new value at `pos` produces exactly the buffer with `x`
inserted at position `pos`. -/
theorem easyEmplace_shift {α : Type} [Inhabited α] (s : List α) (p : Nat) (x : α)
    (hp : p < s.length) :
    (moveBackward (s ++ [s.getD (s.length - 1) default]) p (s.length - 1) s.length).set p x
      = s.take p ++ x :: s.drop p := by
  have hb1 : (s ++ [s.getD (s.length - 1) default]).length = s.length + 1 := by simp
  have hA : ∀ i, i < s.length →
      (s ++ [s.getD (s.length - 1) default]).getD i default = s.getD i default :=
    fun i hi => List.getD_append _ _ _ _ hi
  have hB : (s ++ [s.getD (s.length - 1) default]).getD s.length default
      = s.getD (s.length - 1) default := by
    rw [List.getD_append_right _ _ _ _ (le_refl _), Nat.sub_self]
    rfl
  apply List.ext_getElem
  · simp [moveBackward]
    omega
  · intro j h1 h2
    have hj : j < s.length + 1 := by
      simp only [List.length_set, moveBackward, List.length_map, List.length_range, hb1] at h1
      exact h1
    have e1 : s.length - (s.length - 1 - p) = p + 1 := by omega
    have e2 : s.length - (s.length - 1) = 1 := by omega
    rw [List.getElem_set, ← List.getD_eq_getElem _ default h2,
      getD_insertAt _ _ _ _ _ (Nat.le_of_lt hp)]
    simp only [moveBackward, List.getElem_map, List.getElem_range, e1, e2]
    split_ifs with c1 c2 c3 c4 c5 c6 c7
    · omega
    · rfl
    · omega
    · omega
    · omega
    · rw [hA _ (by omega)]
    · rw [hA _ (by omega)]
    · omega
    · have hje : j = s.length := by omega
      rw [hje, hB]

/-- Evaluation of the shifting loop of `Erase`: moving `[pos + 1, size)`
one slot left and cutting the last slot produces exactly the buffer with
the element at position `pos` removed. -/
theorem erase_shift {α : Type} [Inhabited α] (s : List α) (p : Nat) (hp : p < s.length) :
    (moveForward s (p + 1) s.length p).take (s.length - 1)
      = s.take p ++ s.drop (p + 1) := by
  apply List.ext_getElem
  · simp [moveForward]
    omega
  · intro j h1 h2
    have hj : j < s.length - 1 := by
      simp only [List.length_take, moveForward, List.length_map, List.length_range] at h1
      omega
    have e1 : p + (s.length - (p + 1)) = s.length - 1 := by omega
    have e2 : p + 1 - p = 1 := by omega
    rw [List.getElem_take _, ← List.getD_eq_getElem _ default h2,
      getD_removeAt _ _ _ _ (Nat.le_of_lt hp)]
    simp only [moveForward, List.getElem_map, List.getElem_range, e1, e2]
    split_ifs with c1 c2 c3
    · omega
    · rfl
    · rfl
    · omega

/-! Theorems. -/

/-- Claim C2: the spec states that after move-construction or
move-assignment of a `RawMemory` the moved-from owner holds no block (null
handle, capacity 0) and no two owners ever reference the same block.  The
code violates this: the move constructor leaves the source capacity at its
old value 2, and move assignment leaves the source buffer pointer set, so
afterwards both owners reference block 7. -/
theorem rawMemory_move_not_emptied :
    ((RawMemory.moveCtor ⟨some 7, 2⟩).2.buffer = none ∧
      (RawMemory.moveCtor ⟨some 7, 2⟩).2.capacity = 2 ∧
      (RawMemory.moveCtor ⟨some 7, 2⟩).2.capacity ≠ 0) ∧
    ((RawMemory.moveAssign ⟨some 5, 1⟩ ⟨some 7, 2⟩ false).2.buffer = some 7 ∧
      (RawMemory.moveAssign ⟨some 5, 1⟩ ⟨some 7, 2⟩ false).1.buffer =
        (RawMemory.moveAssign ⟨some 5, 1⟩ ⟨some 7, 2⟩ false).2.buffer) := by
  decide

/-- Claim C3: `FillTmpData` (used by `Reserve`) and `RealocationEmplace`
select the relocation strategy by the same rule, and that rule moves the
elements exactly when move construction is non-throwing or the type is not
copyable. -/
theorem relocation_strategy_uniform (t : ElemTraits) :
    fillTmpDataUsesMove t = realocationEmplaceUsesMove t ∧
      (fillTmpDataUsesMove t = true ↔
        (t.isNothrowMoveConstructible = true ∨ t.isCopyConstructible = false)) := by
  obtain ⟨m, c⟩ := t
  cases m <;> cases c <;> simp [fillTmpDataUsesMove, realocationEmplaceUsesMove]

/-- Claim C9: `Reserve(newCap)` with `newCap ≤ capacity` is a no-op: the
state (size, every element value, capacity) is unchanged. -/
theorem reserve_noop {α : Type} (v : Vector α) (newCapacity : Nat)
    (h : newCapacity ≤ v.capacity) : v.Reserve newCapacity = v := by
  simp [Vector.Reserve, h]

/-- Witness for `reserve_noop` at a concrete input. -/
theorem reserve_noop_witness :
    2 ≤ 3 ∧ (⟨[4, 5], 3⟩ : Vector Nat).Reserve 2 = ⟨[4, 5], 3⟩ :=
  ⟨by decide, reserve_noop (⟨[4, 5], 3⟩ : Vector Nat) 2 (by decide)⟩

/-- Claim C1: the spec states that a reallocation whose relocation copy
throws leaves the sequence unchanged with no element leaked.  The `Reserve`
path satisfies this, but the reallocating emplace path does not: on a
one-element vector at full capacity, with a copy constructor that throws on
its 2nd invocation, `PushBack` first copy-constructs the new element into
the new storage (invocation 1) and then throws while relocating the old
element (invocation 2).  The sequence itself is left unchanged, but one
element was constructed in the new storage and zero were destroyed — the
new element is leaked, since `RealocationEmplace` installs no handler
before `std::uninitialized_copy_n`. -/
theorem realocationEmplace_throwingCopy_leaks :
    Vector.RealocationEmplaceThrowingCopy 2 (⟨[10], 1⟩ : Vector Nat) 1 20 =
      ⟨⟨[10], 1⟩, true, 1, 0⟩ ∧
    (Vector.RealocationEmplaceThrowingCopy 2 (⟨[10], 1⟩ : Vector Nat) 1 20).constructedNew ≠
      (Vector.RealocationEmplaceThrowingCopy 2 (⟨[10], 1⟩ : Vector Nat) 1 20).destroyedNew ∧
    Vector.ReserveThrowingCopy 1 (⟨[10], 1⟩ : Vector Nat) 2 = ⟨⟨[10], 1⟩, true, 0, 0⟩ := by
  decide

/-- Contents of the buffer after the assignment loop: the values of `rhs`
on the shared prefix, the old values beyond it. -/
theorem assignOverlap_eq {α : Type} (s r : List α) :
    assignOverlap s r = r.take s.length ++ s.drop r.length := by
  induction s generalizing r with
  | nil => cases r <;> simp [assignOverlap]
  | cons a s ih =>
    cases r with
    | nil => simp [assignOverlap]
    | cons b r => simp [assignOverlap, ih]

/-- Claim C4: copy assignment makes the target hold exactly the element
values of `rhs`; when `rhs.size ≤ capacity` the capacity is kept and no
reallocation happens, and when `rhs.size > capacity` an exact-size copy is
swapped in, so the capacity becomes `rhs.size`. -/
theorem copyAssign_matches_rhs {α : Type} (v rhs : Vector α) :
    (v.copyAssign rhs).elems = rhs.elems ∧
      (rhs.elems.length ≤ v.capacity → (v.copyAssign rhs).capacity = v.capacity) ∧
      (v.capacity < rhs.elems.length → (v.copyAssign rhs).capacity = rhs.elems.length) := by
  refine ⟨?_, ?_, ?_⟩
  · unfold Vector.copyAssign
    by_cases hc : v.capacity < rhs.elems.length
    · simp [hc]
    · simp only [hc, if_false]
      by_cases hlt : rhs.elems.length < v.elems.length
      · simp only [hlt, if_true]
        rw [assignOverlap_eq]
        have h1 : rhs.elems.take v.elems.length = rhs.elems :=
          List.take_of_length_le (by omega)
        rw [h1, List.take_append_of_le_length (by omega), List.take_length]
      · simp only [hlt, if_false]
        rw [assignOverlap_eq]
        have h1 : v.elems.drop rhs.elems.length = [] := by
          rw [List.drop_eq_nil_iff]
          omega
        rw [h1, List.append_nil, List.take_append_drop]
  · intro h
    unfold Vector.copyAssign
    rw [if_neg (by omega)]
    by_cases hlt : rhs.elems.length < v.elems.length
    · simp [hlt]
    · simp [hlt]
  · intro h
    unfold Vector.copyAssign
    rw [if_pos h]

/-- Witness for `copyAssign_matches_rhs` at a concrete input. -/
theorem copyAssign_matches_rhs_witness :
    ((⟨[1, 2, 3], 4⟩ : Vector Nat).copyAssign ⟨[7, 8], 2⟩).elems = [7, 8] ∧
      ((2 : Nat) ≤ 4 ∧
        ((⟨[1, 2, 3], 4⟩ : Vector Nat).copyAssign ⟨[7, 8], 2⟩).capacity = 4) := by
  have h := copyAssign_matches_rhs (⟨[1, 2, 3], 4⟩ : Vector Nat) ⟨[7, 8], 2⟩
  exact ⟨h.1, by decide, h.2.1 (by decide)⟩

/-- Claim C10: copy self-assignment is guarded by the `this != &rhs` check,
so it changes nothing, destroys no element and allocates nothing; moreover
even the value-level assignment of a vector to itself is the identity. -/
theorem copy_self_assignment_noop {α : Type} (v : Vector α) :
    Vector.copyAssignOp true v v = (v, 0, false) ∧
      (v.elems.length ≤ v.capacity → v.copyAssign v = v) := by
  refine ⟨rfl, fun h => ?_⟩
  obtain ⟨es, cap⟩ := v
  unfold Vector.copyAssign
  simp only at h
  rw [if_neg (by simp only; omega)]
  simp [assignOverlap_eq]

/-- The elements after `Emplace` at a valid position: on both the fast path
and the reallocating path the buffer holds the old prefix, the new value,
then the old suffix. -/
theorem emplace_elems {α : Type} [Inhabited α] (v : Vector α) (p : Nat) (x : α)
    (hp : p ≤ v.elems.length) :
    (v.Emplace p x).1.elems = v.elems.take p ++ x :: v.elems.drop p := by
  unfold Vector.Emplace Vector.EasyEmplace Vector.RealocationEmplace
  by_cases hcap : v.elems.length < v.capacity
  · rw [if_pos hcap]
    by_cases hpe : p ≠ v.elems.length
    · rw [if_pos hpe]
      exact easyEmplace_shift v.elems p x (by omega)
    · rw [if_neg hpe]
      have he : p = v.elems.length := by omega
      subst he
      simp
  · rw [if_neg hcap]

/-- The iterator index returned by `Emplace` is the insertion position on
both paths. -/
theorem emplace_idx {α : Type} [Inhabited α] (v : Vector α) (p : Nat) (x : α) :
    (v.Emplace p x).2 = p := by
  unfold Vector.Emplace Vector.EasyEmplace Vector.RealocationEmplace
  by_cases hcap : v.elems.length < v.capacity
  · rw [if_pos hcap]
    by_cases hpe : p ≠ v.elems.length
    · rw [if_pos hpe]
    · rw [if_neg hpe]
  · rw [if_neg hcap]

/-- The capacity after `Emplace`: unchanged on the fast path, and
`size == 0 ? 1 : size * 2` on the reallocating path. -/
theorem emplace_capacity {α : Type} [Inhabited α] (v : Vector α) (p : Nat) (x : α) :
    (v.Emplace p x).1.capacity =
      if v.elems.length < v.capacity then v.capacity
      else if v.elems.length = 0 then 1 else v.elems.length * 2 := by
  unfold Vector.Emplace Vector.EasyEmplace Vector.RealocationEmplace
  by_cases hcap : v.elems.length < v.capacity
  · rw [if_pos hcap, if_pos hcap]
    by_cases hpe : p ≠ v.elems.length
    · rw [if_pos hpe]
    · rw [if_neg hpe]
  · rw [if_neg hcap, if_neg hcap]

/-- Claim C5: `Emplace` (and therefore `Insert`) at any position
`p ≤ size` yields the old elements `[0, p)`, then the new element, then the
old elements `[p, size)`, and the returned iterator index is `p`, where the
inserted value sits. -/
theorem emplace_insert_spec {α : Type} [Inhabited α] (v : Vector α) (p : Nat) (x : α)
    (hp : p ≤ v.elems.length) :
    (v.Insert p x).1.elems = v.elems.take p ++ x :: v.elems.drop p ∧
      (v.Insert p x).2 = p ∧
      (v.Insert p x).1.elems.getD (v.Insert p x).2 default = x := by
  have h1 : (v.Insert p x).1.elems = v.elems.take p ++ x :: v.elems.drop p :=
    emplace_elems v p x hp
  have h2 : (v.Insert p x).2 = p := emplace_idx v p x
  refine ⟨h1, h2, ?_⟩
  rw [h1, h2, getD_insertAt _ _ _ _ _ hp, if_neg (by omega), if_pos rfl]

/-- Witness for `emplace_insert_spec`: `Insert` of value 3 at index 2 of
`[1, 2, 4]` yields `[1, 2, 3, 4]` and returns the index of the value 3. -/
theorem emplace_insert_spec_witness :
    (2 : Nat) ≤ 3 ∧
      ((⟨[1, 2, 4], 4⟩ : Vector Nat).Insert 2 3).1.elems = [1, 2, 3, 4] ∧
      ((⟨[1, 2, 4], 4⟩ : Vector Nat).Insert 2 3).2 = 2 := by
  have h := emplace_insert_spec (⟨[1, 2, 4], 4⟩ : Vector Nat) 2 3 (by decide)
  exact ⟨by decide, by simpa using h.1, h.2.1⟩

/-- Claim C7: `Erase` at a valid position `p < size` removes the element at
`p` (each later element is shifted one slot left and the vacated trailing
slot destroyed), decrements the size by one, keeps the capacity (no
reallocation), returns the iterator index `p`, and the element now at `p`
is the old element of index `p + 1` when one exists. -/
theorem erase_spec {α : Type} [Inhabited α] (v : Vector α) (p : Nat)
    (hp : p < v.elems.length) :
    (v.Erase p).1.elems = v.elems.take p ++ v.elems.drop (p + 1) ∧
      (v.Erase p).1.elems.length = v.elems.length - 1 ∧
      (v.Erase p).1.capacity = v.capacity ∧
      (v.Erase p).2 = p ∧
      (v.Erase p).1.elems.getD p default = v.elems.getD (p + 1) default := by
  have h1 : (v.Erase p).1.elems = v.elems.take p ++ v.elems.drop (p + 1) :=
    erase_shift v.elems p hp
  refine ⟨h1, ?_, rfl, rfl, ?_⟩
  · rw [h1]
    simp
    omega
  · rw [h1, getD_removeAt _ _ _ _ (Nat.le_of_lt hp), if_neg (by omega)]

/-- Witness for `erase_spec`: `Erase` at index 1 of `[1, 2, 3, 4]` yields
`[1, 3, 4]` with the returned iterator at the element holding 3. -/
theorem erase_spec_witness :
    (1 : Nat) < 4 ∧
      ((⟨[1, 2, 3, 4], 4⟩ : Vector Nat).Erase 1).1.elems = [1, 3, 4] ∧
      ((⟨[1, 2, 3, 4], 4⟩ : Vector Nat).Erase 1).2 = 1 ∧
      ((⟨[1, 2, 3, 4], 4⟩ : Vector Nat).Erase 1).1.elems.getD 1 0 = 3 := by
  have h := erase_spec (⟨[1, 2, 3, 4], 4⟩ : Vector Nat) 1 (by decide)
  exact ⟨by decide, by simpa using h.1, h.2.2.2.1, by simpa using h.2.2.2.2⟩

/-- Witness for `copy_self_assignment_noop` at a concrete input. -/
theorem copy_self_assignment_noop_witness :
    Vector.copyAssignOp true (⟨[1, 2], 2⟩ : Vector Nat) ⟨[1, 2], 2⟩ = (⟨[1, 2], 2⟩, 0, false) ∧
      ((2 : Nat) ≤ 2 ∧ (⟨[1, 2], 2⟩ : Vector Nat).copyAssign ⟨[1, 2], 2⟩ = ⟨[1, 2], 2⟩) := by
  have h := copy_self_assignment_noop (⟨[1, 2], 2⟩ : Vector Nat)
  exact ⟨h.1, by decide, h.2 (by decide)⟩

/-- Function `Reserve` never changes the live elements. -/
theorem reserve_elems {α : Type} (v : Vector α) (n : Nat) :
    (v.Reserve n).elems = v.elems := by
  unfold Vector.Reserve
  split <;> rfl

/-- Claim C8: `Resize(newSize)` with `newSize ≤ size` keeps exactly the
first `newSize` elements and the capacity (the elements `[newSize, size)`
are destroyed); with `newSize > size` it keeps all elements, appends
`newSize - size` value-constructed elements and takes the capacity produced
by `Reserve(newSize)`; in both directions the final size is `newSize`. -/
theorem resize_spec {α : Type} [Inhabited α] (v : Vector α) (newSize : Nat) :
    (newSize ≤ v.elems.length → v.Resize newSize = ⟨v.elems.take newSize, v.capacity⟩) ∧
      (v.elems.length < newSize →
        (v.Resize newSize).elems
            = v.elems ++ List.replicate (newSize - v.elems.length) default ∧
          (v.Resize newSize).capacity = (v.Reserve newSize).capacity) ∧
      (v.Resize newSize).elems.length = newSize := by
  by_cases h : newSize ≤ v.elems.length
  · refine ⟨fun _ => ?_, fun hgt => absurd hgt (by omega), ?_⟩
    · unfold Vector.Resize
      rw [if_pos h]
    · unfold Vector.Resize
      rw [if_pos h]
      simp
      omega
  · refine ⟨fun hle => absurd hle h, fun _ => ?_, ?_⟩
    · unfold Vector.Resize
      rw [if_neg h]
      exact ⟨by simp [reserve_elems], rfl⟩
    · unfold Vector.Resize
      rw [if_neg h]
      simp [reserve_elems]
      omega

/-- Witness for `resize_spec`: `Resize(2)` on a 4-element sequence keeps
`[5, 6]`, and `Resize(6)` from size 2 appends four value-constructed
elements and reallocates to capacity 6. -/
theorem resize_spec_witness :
    ((2 : Nat) ≤ 4 ∧ (⟨[5, 6, 7, 8], 4⟩ : Vector Nat).Resize 2 = ⟨[5, 6], 4⟩) ∧
      ((2 : Nat) < 6 ∧ ((⟨[1, 2], 2⟩ : Vector Nat).Resize 6).elems = [1, 2, 0, 0, 0, 0] ∧
        ((⟨[1, 2], 2⟩ : Vector Nat).Resize 6).capacity = 6) := by
  have h1 := (resize_spec (⟨[5, 6, 7, 8], 4⟩ : Vector Nat) 2).1 (by decide)
  have h2 := (resize_spec (⟨[1, 2], 2⟩ : Vector Nat) 6).2.1 (by decide)
  refine ⟨⟨by decide, by simpa using h1⟩, by decide, by simpa using h2.1, by simpa using h2.2⟩

/-- Repeated `PushBack` from the empty vector (the pushed values are
`0, 1, 2, ...`). -/
def pushN : Nat → Vector Nat
  | 0 => ⟨[], 0⟩
  | n + 1 => (pushN n).PushBack n

/-- One `PushBack` grows the size by one. -/
theorem pushBack_size {α : Type} [Inhabited α] (v : Vector α) (x : α) :
    (v.PushBack x).elems.length = v.elems.length + 1 := by
  show ((v.Emplace v.elems.length x).1.elems).length = v.elems.length + 1
  rw [emplace_elems v _ x (le_refl _)]
  simp

/-- After `n` pushes the size is `n`. -/
theorem pushN_size (n : Nat) : (pushN n).elems.length = n := by
  induction n with
  | zero => rfl
  | succ n ih =>
    show ((pushN n).PushBack n).elems.length = n + 1
    rw [pushBack_size, ih]

/-- After `n ≥ 1` pushes from empty the capacity is the least power of two
at least `n`. -/
theorem pushN_capacity (n : Nat) (hn : 1 ≤ n) :
    (pushN n).capacity = 2 ^ Nat.clog 2 n := by
  induction n with
  | zero => omega
  | succ n ih =>
    rcases Nat.eq_zero_or_pos n with hn0 | hn1
    · subst hn0
      rw [Nat.clog_one_right]
      decide
    · have hsz := pushN_size n
      have hcap := ih hn1
      have hle : n ≤ 2 ^ Nat.clog 2 n := Nat.le_pow_clog (by norm_num) n
      have hpos : 0 < 2 ^ Nat.clog 2 n := Nat.pos_pow_of_pos _ (by norm_num)
      show ((pushN n).PushBack n).capacity = 2 ^ Nat.clog 2 (n + 1)
      rw [show (pushN n).PushBack n = ((pushN n).Emplace (pushN n).elems.length n).1 from rfl,
        emplace_capacity, hsz, hcap]
      rcases Nat.lt_or_ge n (2 ^ Nat.clog 2 n) with hlt | hge
      · rw [if_pos hlt]
        congr 1
        have h1 : Nat.clog 2 (n + 1) ≤ Nat.clog 2 n :=
          (Nat.le_pow_iff_clog_le (by norm_num)).mp (by omega)
        have h2 : Nat.clog 2 n ≤ Nat.clog 2 (n + 1) := Nat.clog_mono_right _ (by omega)
        omega
      · rw [if_neg (by omega), if_neg (by omega)]
        have h1 : Nat.clog 2 (n + 1) ≤ Nat.clog 2 n + 1 := by
          apply (Nat.le_pow_iff_clog_le (by norm_num)).mp
          rw [pow_succ]
          omega
        have h2 : Nat.clog 2 n < Nat.clog 2 (n + 1) :=
          (Nat.pow_lt_iff_lt_clog (by norm_num)).mp (by omega)
        have h3 : Nat.clog 2 (n + 1) = Nat.clog 2 n + 1 := by omega
        rw [h3, pow_succ]
        omega

/-- Claim C6: capacity grows only on overflow and then doubles (empty goes
to 1): a push with `size == capacity` reallocates to `max 1 (2 * size)`,
and after `n ≥ 1` pushes from an empty vector the capacity is the least
power of two at least `n` — the capacity sequence 1, 2, 4, 8, ... -/
theorem growth_policy :
    (∀ (v : Vector Nat) (x : Nat), v.elems.length = v.capacity →
        (v.PushBack x).capacity = max 1 (2 * v.elems.length)) ∧
      ∀ n : Nat, 1 ≤ n → (pushN n).capacity = 2 ^ Nat.clog 2 n := by
  constructor
  · intro v x h
    rw [show v.PushBack x = (v.Emplace v.elems.length x).1 from rfl, emplace_capacity,
      if_neg (by omega)]
    by_cases h0 : v.elems.length = 0
    · rw [if_pos h0, h0]
      omega
    · rw [if_neg h0]
      omega
  · exact pushN_capacity

/-- Witness for `growth_policy`: a full one-element vector reallocates to
capacity 2, and after 5 pushes from empty the capacity is `2 ^ clog 2 5`. -/
theorem growth_policy_witness :
    (((1 : Nat) = 1 ∧ ((⟨[9], 1⟩ : Vector Nat).PushBack 7).capacity = max 1 2) ∧
      ((1 : Nat) ≤ 5 ∧ (pushN 5).capacity = 2 ^ Nat.clog 2 5)) := by
  refine ⟨⟨rfl, ?_⟩, by decide, growth_policy.2 5 (by decide)⟩
  have h := growth_policy.1 (⟨[9], 1⟩ : Vector Nat) 7 rfl
  simpa using h

end AdvancedVector
